import Mathlib

/-!
Verification development for the `tui-rs` constraint layout solver, layout
cache, and text reflow engine.

The definitions below are shallow embeddings of `src/layout/layout.rs` and
`src/widgets/reflow.rs`.  Machine integers (`u16`, `usize`) are modelled as
`Nat`; the `f64` values flowing through the cassowary solver are modelled as
`ℚ` (every constant the layout code feeds into the solver — strengths,
constraint sizes, area bounds — is an integer, hence exactly representable).
Value types that live in the repository but outside the provided sources
(`Rect`, `Margin`, `Constraint`, `Flex`, `Direction`, `Alignment`,
`StyledGrapheme`) are modelled from the spec, as marked on each definition.
-/

namespace Tui

/-- The `u16::MAX`, the saturation bound for rectangle coordinate arithmetic. -/
def U16_MAX : Nat := 65535

/-- Modelled from the spec: `Rect` (§3) — integer `{x, y, width, height}`,
unsigned, origin top-left; the struct itself lives in `layout/rect.rs`,
which is not under `src/`.  Fields are `u16` in the source; we use `Nat`
and carry the `u16` range as hypotheses where it matters. -/
structure Rect where
  x : Nat
  y : Nat
  width : Nat
  height : Nat
deriving DecidableEq, Repr

/-- Modelled from the spec: `Rect::right` is the exclusive bound
`x + width`, saturating (§3). -/
def Rect.right (r : Rect) : Nat := min (r.x + r.width) U16_MAX

/-- Modelled from the spec: `Rect::bottom` is the exclusive bound
`y + height`, saturating (§3). -/
def Rect.bottom (r : Rect) : Nat := min (r.y + r.height) U16_MAX

/-- Modelled from the spec: `Margin` (§3) — unsigned symmetric insets. -/
structure Margin where
  horizontal : Nat
  vertical : Nat
deriving DecidableEq, Repr

/-- Modelled from the spec: `Rect::inner` (§3) applies a `Margin`
symmetrically; when the rect cannot absorb the doubled margin the result
degenerates to the zero rect rather than underflowing. -/
def Rect.inner (r : Rect) (m : Margin) : Rect :=
  if r.width < 2 * m.horizontal ∨ r.height < 2 * m.vertical then ⟨0, 0, 0, 0⟩
  else ⟨r.x + m.horizontal, r.y + m.vertical,
        r.width - 2 * m.horizontal, r.height - 2 * m.vertical⟩

/-- Modelled from the spec: layout `Direction` (§3, `layout/mod.rs` is not
under `src/`). -/
inductive Direction where
  | horizontal
  | vertical
deriving DecidableEq, Repr

/-- Modelled from the spec: the `Constraint` tagged union (§3).  Numeric
payloads are `u16` (`u32` for ratio) in the source. -/
inductive Constraint where
  | fixed (n : Nat)
  | length (n : Nat)
  | percentage (p : Nat)
  | ratio (num den : Nat)
  | min (n : Nat)
  | max (n : Nat)
  | proportional (weight : Nat)
deriving DecidableEq, Repr

/-- Modelled from the spec: the `Flex` distribution policy (§3). -/
inductive Flex where
  | stretchLast
  | stretch
  | start
  | center
  | atEnd
  | spaceAround
  | spaceBetween
deriving DecidableEq, Repr

/-- The `Layout` struct (`layout.rs` lines 108–115): direction, ordered
constraints, margin, flex policy and inter-segment spacing.  Used here as
the structural-equality cache key component. -/
structure Layout where
  direction : Direction
  constraints : List Constraint
  margin : Margin
  flex : Flex
  spacing : Nat
deriving DecidableEq, Repr

/-! ## Layout cache

`layout.rs` keeps a thread-local `OnceLock<RefCell<LruCache<(Rect, Layout),
(Segments, Spacers)>>>` (lines 32–36).  We model the per-thread cache state
as `Option (capacity × recency-ordered association list)`: `none` is the
unset `OnceLock`, and the list is most-recently-used first, mirroring the
`lru` crate's `LruCache` (external crate; modelled here: a hit promotes the
entry to the front, an insert at capacity evicts the back entry).

The expensive solve `try_split` (lines 550–633) is abstracted as a function
parameter `f : CacheKey → CacheValue`: the cache-transparency claims are
about the caching layer treating it as a pure function of the key, not about
the value it computes. -/

/-- Cache keys: `(Rect, Layout)` under full structural equality
(`layout.rs` line 32). -/
abbrev CacheKey := Rect × Layout

/-- Cache values: `(Segments, Spacers)` — two rect sequences
(`layout.rs` lines 18–32). -/
abbrev CacheValue := List Rect × List Rect

/-- Per-thread cache state: `none` while the `OnceLock` is unset, otherwise
the capacity together with the LRU association list (most recent first). -/
abbrev CacheState := Option (Nat × List (CacheKey × CacheValue))

/-- The `Layout::DEFAULT_CACHE_SIZE` (`layout.rs` line 123). -/
def Layout.DEFAULT_CACHE_SIZE : Nat := 500

/-- The `LruCache::get_or_insert(key, || default)` (external `lru` crate, used
at `layout.rs` lines 542–545): on a hit the stored value is returned and the
entry moves to the front of the recency order; on a miss the default is
inserted at the front, evicting the least recently used entry when the cache
is at capacity. -/
def lruGetOrInsert (cap : Nat) (k : CacheKey) (v : CacheValue)
    (l : List (CacheKey × CacheValue)) :
    CacheValue × List (CacheKey × CacheValue) :=
  match l.find? (fun p => p.1 == k) with
  | some p => (p.2, (k, p.2) :: l.eraseP (fun q => q.1 == k))
  | none =>
      let l' := if cap ≤ l.length then l.dropLast else l
      (v, (k, v) :: l')

/-- The `Layout::split_with_spacers` (`layout.rs` lines 535–548): lazily
initialize the cache at `DEFAULT_CACHE_SIZE` if unset, then
`get_or_insert` keyed on `(area, layout)`, computing `try_split` — here the
abstract `f` — only on a miss. -/
def splitWithSpacers (f : CacheKey → CacheValue) (k : CacheKey)
    (st : CacheState) : CacheValue × CacheState :=
  let s := st.getD (Layout.DEFAULT_CACHE_SIZE, [])
  let r := lruGetOrInsert s.1 k (f k) s.2
  (r.1, some (s.1, r.2))

/-- The `Layout::init_cache` (`layout.rs` lines 219–227):
`NonZeroUsize::new(cache_size).unwrap()` panics on zero (modelled as
`none`); otherwise `OnceLock::set` succeeds exactly when the cell is unset,
and the call reports whether this call set it. -/
def initCache (n : Nat) (st : CacheState) : Option (Bool × CacheState) :=
  if n = 0 then none
  else
    match st with
    | none => some (true, some (n, []))
    | some s => some (false, some s)

/-- The cache invariant: every stored entry is the `try_split` result for
its own key. -/
def cacheWF (f : CacheKey → CacheValue) (st : CacheState) : Prop :=
  ∀ s, st = some s → ∀ p ∈ s.2, p.2 = f p.1

theorem cacheWF_none (f : CacheKey → CacheValue) : cacheWF f none := by
  intro s hs
  simp at hs

/-- C7 — For every pure solve function `f`, key `k` and well-formed
cache state (warm or cold), `split_with_spacers` returns exactly `f k`
(the uncached `try_split` result), preserves well-formedness, and a second
structurally equal call returns an equal result. -/
theorem split_with_spacers_cache_transparent
    (f : CacheKey → CacheValue) (k : CacheKey) (st : CacheState)
    (hwf : cacheWF f st) :
    (splitWithSpacers f k st).1 = f k ∧
    cacheWF f (splitWithSpacers f k st).2 ∧
    (splitWithSpacers f k (splitWithSpacers f k st).2).1
      = (splitWithSpacers f k st).1 := by
  have key : ∀ (cap : Nat) (l : List (CacheKey × CacheValue)),
      (∀ p ∈ l, p.2 = f p.1) →
      (lruGetOrInsert cap k (f k) l).1 = f k ∧
      (∀ p ∈ (lruGetOrInsert cap k (f k) l).2, p.2 = f p.1) := by
    intro cap l hl
    rcases hfind : l.find? (fun p => p.1 == k) with _ | p
    · refine ⟨by simp [lruGetOrInsert, hfind], ?_⟩
      simp only [lruGetOrInsert, hfind]
      intro p hp
      rcases List.mem_cons.mp hp with h | h
      · simp [h]
      · apply hl
        by_cases hc : cap ≤ l.length <;> simp only [hc, if_true, if_false] at h
        · exact (List.dropLast_sublist l).subset h
        · exact h
    · have hmem := List.mem_of_find?_eq_some hfind
      have hkey : p.1 = k := by
        have := List.find?_some hfind
        simpa using this
      have hv : p.2 = f k := by rw [hl p hmem, hkey]
      refine ⟨by simp [lruGetOrInsert, hfind, hv], ?_⟩
      simp only [lruGetOrInsert, hfind]
      intro q hq
      rcases List.mem_cons.mp hq with h | h
      · simp [h, hv]
      · exact hl q ((List.eraseP_sublist l).subset h)
  have base : ∀ (cap : Nat) (l : List (CacheKey × CacheValue)),
      (∀ p ∈ l, p.2 = f p.1) →
      (splitWithSpacers f k (some (cap, l))).1 = f k ∧
      cacheWF f (splitWithSpacers f k (some (cap, l))).2 := by
    intro cap l hl
    have h := key cap l hl
    refine ⟨h.1, ?_⟩
    intro s' hs' p hp
    simp only [splitWithSpacers, Option.getD, Option.some.injEq] at hs'
    subst hs'
    exact h.2 p hp
  have h12 : (splitWithSpacers f k st).1 = f k ∧
      cacheWF f (splitWithSpacers f k st).2 := by
    rcases st with _ | ⟨cap, l⟩
    · exact base Layout.DEFAULT_CACHE_SIZE [] (by simp)
    · exact base cap l (fun p hp => hwf (cap, l) rfl p hp)
  have h3 : (splitWithSpacers f k (splitWithSpacers f k st).2).1 = f k := by
    rcases hst : (splitWithSpacers f k st).2 with _ | ⟨cap, l⟩
    · exact (base Layout.DEFAULT_CACHE_SIZE [] (by simp)).1
    · have hwf' : cacheWF f (some (cap, l)) := hst ▸ h12.2
      exact (base cap l (fun p hp => hwf' (cap, l) rfl p hp)).1
  exact ⟨h12.1, h12.2, by rw [h3, h12.1]⟩

/-- C7 witness — concrete instantiation: a cold cache, the constant
solve function, and a concrete key. -/
theorem split_with_spacers_cache_transparent_witness :
    (splitWithSpacers (fun _ => ([], [])) (⟨0, 0, 10, 10⟩,
      ⟨Direction.horizontal, [Constraint.fixed 3], ⟨0, 0⟩, Flex.stretchLast, 0⟩)
      none).1 = ([], []) :=
  (split_with_spacers_cache_transparent (fun _ => ([], []))
    (⟨0, 0, 10, 10⟩,
      ⟨Direction.horizontal, [Constraint.fixed 3], ⟨0, 0⟩, Flex.stretchLast, 0⟩)
    none (cacheWF_none _)).1

/-- C8 — In a fresh context the first `init_cache n` (with `n ≠ 0`,
made before any split) sets the capacity to `n` and returns `true`; an
`init_cache` against an already-initialized cache returns `false` and
leaves the state unchanged; and a split on a fresh context initializes the
capacity to the default 500, so a later `init_cache` hits the second case. -/
theorem init_cache_first_call_wins :
    (∀ n : Nat, n ≠ 0 → initCache n none = some (true, some (n, []))) ∧
    (∀ (n : Nat) s, n ≠ 0 → initCache n (some s) = some (false, some s)) ∧
    (∀ (f : CacheKey → CacheValue) (k : CacheKey),
      (splitWithSpacers f k none).2 = some (500, [(k, f k)])) := by
  refine ⟨fun n hn => ?_, fun n s hn => ?_, fun f k => ?_⟩
  · simp [initCache, hn]
  · simp [initCache, hn]
  · simp [splitWithSpacers, lruGetOrInsert, Layout.DEFAULT_CACHE_SIZE]

/-- C8 witness — concrete instantiation at `n = 7`. -/
theorem init_cache_first_call_wins_witness :
    initCache 7 none = some (true, some (7, [])) ∧
    initCache 7 (some (500, [])) = some (false, some (500, [])) :=
  ⟨init_cache_first_call_wins.1 7 (by decide),
   init_cache_first_call_wins.2.1 7 (500, []) (by decide)⟩

/-- C10 — `init_cache 0` panics (`NonZeroUsize::new(0).unwrap()`,
modelled as `none`) for every cache state, while for every nonzero size the
call is total. -/
theorem init_cache_zero_panics :
    (∀ st : CacheState, initCache 0 st = none) ∧
    (∀ (n : Nat) (st : CacheState), n ≠ 0 → (initCache n st).isSome = true) := by
  constructor
  · intro st
    simp [initCache]
  · intro n st hn
    cases st <;> simp [initCache, hn]

/-- C10 witness — concrete instantiation at size 1 and a fresh state. -/
theorem init_cache_zero_panics_witness :
    initCache 0 none = none ∧ (initCache 1 none).isSome = true :=
  ⟨init_cache_zero_panics.1 none, init_cache_zero_panics.2 1 none (by decide)⟩

/-! ## Text reflow engine (`widgets/reflow.rs`)

The reflow state machines consume `StyledGrapheme`s and consult exactly two
attributes of each: its display width (`symbol.width()`, the Unicode
display-width tables of the external `unicode-width` crate) and its
whitespace classification (`StyledGrapheme::is_whitespace`, in the `text`
module which is not under `src/`).  We therefore carry both as data on the
modelled grapheme.  Styles are not modelled: the reflow code only moves them
around unchanged. -/

/-- Modelled from the spec: `StyledGrapheme` (§3) — one extended grapheme
cluster with a display-width annotation (widths 0, 1 or 2 in practice) and
its whitespace classification as used by `WordWrapper` (zero-width space is
whitespace, non-breaking space is not). -/
structure StyledGrapheme where
  symbol : String
  width : Nat
  whitespace : Bool
deriving DecidableEq, Repr

/-- A line of styled graphemes, the unit both composers consume and emit. -/
abbrev GLine := List StyledGrapheme

/-- Total display width of a line: the sum of its graphemes' widths
(`reflow.rs` lines 194–197). -/
def lineWidth (l : GLine) : Nat := (l.map (fun g => g.width)).sum

/-- Modelled from the spec: text `Alignment` (left / center / right), from
the `layout` module (not under `src/`).  The truncator applies its
horizontal scroll offset only to left-aligned lines. -/
inductive Alignment where
  | left
  | center
  | right
deriving DecidableEq, Repr

/-- The mutable locals of `WordWrapper::process_input` (`reflow.rs` lines
64–72): finished lines, the line being assembled and its width, the pending
word and pending whitespace buffers with their widths, and the
previous-symbol-was-non-whitespace flag. -/
structure WrapState where
  result : List GLine
  currentLine : GLine
  currentLineWidth : Nat
  pendingWord : GLine
  wordWidth : Nat
  pendingWhitespace : GLine
  whitespaceWidth : Nat
  nonWhitespacePrevious : Bool
deriving DecidableEq, Repr

/-- All-empty initial state of `process_input`. -/
def initWrapState : WrapState := ⟨[], [], 0, [], 0, [], 0, false⟩

/-- The whitespace-removal loop after a line break (`reflow.rs` lines
124–135): pop pending whitespace from the front while it fits in the width
remaining on the just-finished line; returns the surviving queue and the
total width popped. -/
def popWhitespace : GLine → Nat → GLine × Nat
  | [], _ => ([], 0)
  | g :: rest, remaining =>
    if remaining < g.width then (g :: rest, 0)
    else
      let r := popWhitespace rest (remaining - g.width)
      (r.1, g.width + r.2)

/-- The "append finished segment to current line" block (`reflow.rs` lines
99–111): drain pending whitespace into the current line unless the line is
empty and `trim` is set, always append the pending word, and clear both
pending buffers. -/
def wrapFlush (trim : Bool) (st : WrapState) : WrapState :=
  let drain : GLine × Nat :=
    if ¬st.currentLine.isEmpty = true ∨ ¬trim = true then
      (st.currentLine ++ st.pendingWhitespace,
       st.currentLineWidth + st.whitespaceWidth)
    else (st.currentLine, st.currentLineWidth)
  { st with
    currentLine := drain.1 ++ st.pendingWord
    currentLineWidth := drain.2 + st.wordWidth
    pendingWord := []
    wordWidth := 0
    pendingWhitespace := []
    whitespaceWidth := 0 }

/-- The "add finished wrapped line" block (`reflow.rs` lines 118–135): move
the current line into the results, then discard pending whitespace that
would have fit in the remaining width of the finished line. -/
def wrapEmit (maxW : Nat) (st : WrapState) : WrapState :=
  let remaining := maxW - st.currentLineWidth
  let popped := popWhitespace st.pendingWhitespace remaining
  { st with
    result := st.result ++ [st.currentLine]
    currentLine := []
    currentLineWidth := 0
    pendingWhitespace := popped.1
    whitespaceWidth := st.whitespaceWidth - popped.2 }

/-- The "append symbol to a pending buffer" block plus the trailing
`non_whitespace_previous` update (`reflow.rs` lines 143–152). -/
def wrapPush (g : StyledGrapheme) (st : WrapState) : WrapState :=
  let st' :=
    if g.whitespace = true then
      { st with pendingWhitespace := st.pendingWhitespace ++ [g]
                whitespaceWidth := st.whitespaceWidth + g.width }
    else
      { st with pendingWord := st.pendingWord ++ [g]
                wordWidth := st.wordWidth + g.width }
  { st' with nonWhitespacePrevious := !g.whitespace }

/-- The flush condition of the grapheme loop (`reflow.rs` lines 83–99):
`word_found || trimmed_overflow || whitespace_overflow ||
untrimmed_overflow`, in source order. -/
def wrapFlushCond (maxW : Nat) (trim : Bool) (st : WrapState)
    (g : StyledGrapheme) : Prop :=
  (st.nonWhitespacePrevious = true ∧ g.whitespace = true) ∨
  (maxW < st.wordWidth + g.width ∧
    st.currentLine.isEmpty = true ∧ trim = true) ∨
  (maxW < st.whitespaceWidth + g.width ∧
    st.currentLine.isEmpty = true ∧ trim = true) ∨
  (maxW < st.wordWidth + st.whitespaceWidth + g.width ∧
    st.currentLine.isEmpty = true ∧ trim = false)

instance (maxW : Nat) (trim : Bool) (st : WrapState) (g : StyledGrapheme) :
    Decidable (wrapFlushCond maxW trim st g) := by
  unfold wrapFlushCond
  exact inferInstance

/-- The line-break condition (`reflow.rs` lines 114–116):
`current_line_width >= max || current_line_width + whitespace_width +
word_width >= max && symbol_width > 0`. -/
def wrapBreakCond (maxW : Nat) (st : WrapState) (g : StyledGrapheme) : Prop :=
  maxW ≤ st.currentLineWidth ∨
  (maxW ≤ st.currentLineWidth + st.whitespaceWidth + st.wordWidth ∧
    0 < g.width)

instance (maxW : Nat) (st : WrapState) (g : StyledGrapheme) :
    Decidable (wrapBreakCond maxW st g) := by
  unfold wrapBreakCond
  exact inferInstance

/-- One iteration of the `for grapheme in line_symbols` loop of
`WordWrapper::process_input` (`reflow.rs` lines 74–153).  Symbols wider
than the max width are skipped; a finished segment is flushed on a word
boundary or an overflow; a full line is emitted (dropping whitespace that
ends at the break, and skipping the current symbol when it is whitespace
and the queue emptied — the `continue`, which also skips the
`non_whitespace_previous` update); otherwise the symbol joins its pending
buffer. -/
def wrapStep (maxW : Nat) (trim : Bool) (st : WrapState)
    (g : StyledGrapheme) : WrapState :=
  if maxW < g.width then st
  else
    let st1 := if wrapFlushCond maxW trim st g then wrapFlush trim st else st
    if wrapBreakCond maxW st1 g then
      let st2 := wrapEmit maxW st1
      if g.whitespace = true ∧ st2.pendingWhitespace.isEmpty = true then st2
      else wrapPush g st2
    else wrapPush g st1

/-- The tail of `WordWrapper::process_input` after the grapheme loop
(`reflow.rs` lines 155–176): append the remaining text parts — an
all-whitespace remainder of an untouched line yields one empty output
line, a remainder with content drains whitespace (unless trimming an empty
line) and the word — and finally guarantee at least one (possibly empty)
line. -/
def wrapFinish (trim : Bool) (st : WrapState) : List GLine :=
  let st' :=
    if ¬st.pendingWord.isEmpty = true ∨ ¬st.pendingWhitespace.isEmpty = true
    then
      if st.currentLine.isEmpty = true ∧ st.pendingWord.isEmpty = true then
        { st with result := st.result ++ [[]]
                  currentLine := st.currentLine ++ st.pendingWord }
      else if ¬trim = true ∨ ¬st.currentLine.isEmpty = true then
        { st with currentLine :=
            (st.currentLine ++ st.pendingWhitespace) ++ st.pendingWord }
      else
        { st with currentLine := st.currentLine ++ st.pendingWord }
    else st
  let result :=
    if ¬st'.currentLine.isEmpty = true then st'.result ++ [st'.currentLine]
    else st'.result
  if result.isEmpty = true then [[]] else result

/-- The `WordWrapper::process_input` (`reflow.rs` lines 64–177): run the
grapheme loop over the line, then finish. -/
def processInput (maxW : Nat) (trim : Bool) (line : GLine) : List GLine :=
  wrapFinish trim (line.foldl (wrapStep maxW trim) initWrapState)

/-- The `WordWrapper::next_line` (`reflow.rs` lines 186–212) drained over the
whole input: `max_line_width == 0` yields no lines at all; otherwise each
input line is processed (every `process_input` yields at least one cached
line) and the cached lines are emitted in order, so the full emission is the
concatenation of the per-line results. -/
def wordWrapLines (maxW : Nat) (trim : Bool) (lines : List GLine) :
    List GLine :=
  if maxW = 0 then [] else (lines.map (processInput maxW trim)).flatten

/-- The `LineTruncator::next_line`'s per-line loop (`reflow.rs` lines 262–298):
copy graphemes — skipping any wider than the max width — until the next one
would exceed the max width; a positive horizontal offset (left-aligned lines
only) drops leading display columns, replacing a partially-skipped grapheme
cluster by `trim_offset`'s suffix, which at a single-cluster granularity is
the whole symbol when the cluster is wider than the remaining offset and the
empty symbol otherwise. -/
def truncLine (maxW : Nat) (alignment : Alignment) :
    GLine → Nat → Nat → GLine
  | [], _, _ => []
  | g :: rest, clw, hoff =>
    if maxW < g.width then truncLine maxW alignment rest clw hoff
    else if maxW < clw + g.width then []
    else
      let sh : StyledGrapheme × Nat :=
        if hoff = 0 ∨ ¬alignment = Alignment.left then (g, hoff)
        else if hoff < g.width then (g, 0)
        else ({ g with symbol := "", width := 0 }, hoff - g.width)
      sh.1 :: truncLine maxW alignment rest (clw + sh.1.width) sh.2

/-- The `LineTruncator::next_line` (`reflow.rs` lines 257–311) drained over the
whole input: `max_line_width == 0` yields no lines; otherwise each call
consumes exactly one input line, truncates it, and returns it — `None`
exactly when the input is exhausted, so the emission is one output line per
input line.  The persistent `horizontal_offset` is read (never written) by
`next_line`, hence identical for every line. -/
def lineTruncatorRun (maxW : Nat) (hoff : Nat)
    (lines : List (GLine × Alignment)) : List GLine :=
  if maxW = 0 then [] else
    lines.map (fun la => truncLine maxW la.2 la.1 0 hoff)

@[simp]
theorem lineWidth_nil : lineWidth [] = 0 := rfl

@[simp]
theorem lineWidth_cons (g : StyledGrapheme) (l : GLine) :
    lineWidth (g :: l) = g.width + lineWidth l := by
  simp [lineWidth]

@[simp]
theorem lineWidth_append (a b : GLine) :
    lineWidth (a ++ b) = lineWidth a + lineWidth b := by
  simp [lineWidth]

/-- A width-1 letter `a` grapheme, as produced for the character `'a'`. -/
def grA : StyledGrapheme := ⟨"a", 1, false⟩

/-- A width-1 space grapheme. -/
def grSpace : StyledGrapheme := ⟨" ", 1, true⟩

/-- The zero-width space `U+200B`: display width 0, and classified as
whitespace by `StyledGrapheme::is_whitespace` (the repository's
`line_composer_zero_width_white_space` test wraps `"foo​bar"` at the
zero-width space). -/
def grZwsp : StyledGrapheme := ⟨"​", 0, true⟩

/-- Letter graphemes `f` and `o` for the `"foo"` test text. -/
def grF : StyledGrapheme := ⟨"f", 1, false⟩

/-- Letter grapheme `o`. -/
def grO : StyledGrapheme := ⟨"o", 1, false⟩

/-- Every line the truncator can emit satisfies
`clw ≤ maxW → clw + lineWidth (truncLine …) ≤ maxW`: the accumulated width
never passes the max. -/
theorem truncLine_width_le (maxW : Nat) (al : Alignment) :
    ∀ (l : GLine) (clw hoff : Nat), clw ≤ maxW →
      clw + lineWidth (truncLine maxW al l clw hoff) ≤ maxW := by
  intro l
  induction l with
  | nil =>
    intro clw hoff h
    simpa [truncLine] using h
  | cons g rest ih =>
    intro clw hoff h
    rw [truncLine]
    by_cases h1 : maxW < g.width
    · rw [if_pos h1]
      exact ih clw hoff h
    · rw [if_neg h1]
      by_cases h2 : maxW < clw + g.width
      · rw [if_pos h2]
        simpa using h
      · rw [if_neg h2]
        by_cases h3 : hoff = 0 ∨ ¬al = Alignment.left
        · rw [if_pos h3]
          simp only [lineWidth_cons]
          have := ih (clw + g.width) hoff (by omega)
          omega
        · rw [if_neg h3]
          by_cases h4 : hoff < g.width
          · rw [if_pos h4]
            simp only [lineWidth_cons]
            have := ih (clw + g.width) 0 (by omega)
            omega
          · rw [if_neg h4]
            simp only [lineWidth_cons]
            have := ih (clw + 0) (hoff - g.width) (by omega)
            omega

/-- C5 — Every line emitted by the line truncator has display width at
most `max_line_width`; and the concrete case: a single line of 65 width-1
`'a'` graphemes truncated at width 20 yields exactly one line of 20 `'a'`s
and nothing else. -/
theorem line_truncator_bound :
    (∀ (maxW hoff : Nat) (lines : List (GLine × Alignment)) (l : GLine),
        l ∈ lineTruncatorRun maxW hoff lines → lineWidth l ≤ maxW) ∧
    lineTruncatorRun 20 0 [(List.replicate 65 grA, Alignment.left)] =
      [List.replicate 20 grA] := by
  constructor
  · intro maxW hoff lines l hl
    by_cases h0 : maxW = 0
    · simp [lineTruncatorRun, h0] at hl
    · simp only [lineTruncatorRun, h0, if_false, List.mem_map] at hl
      obtain ⟨la, _, rfl⟩ := hl
      simpa using truncLine_width_le maxW la.2 la.1 0 hoff (Nat.zero_le _)
  · decide

/-- C5 witness — the general bound applied at the concrete 65-`'a'`
input. -/
theorem line_truncator_bound_witness :
    lineWidth (List.replicate 20 grA) ≤ 20 :=
  line_truncator_bound.1 20 0 [(List.replicate 65 grA, Alignment.left)]
    (List.replicate 20 grA)
    (by rw [line_truncator_bound.2]; exact List.mem_singleton.mpr rfl)

/-- C4 counterexample — the claim "feeding lines each of display width
at most `w` through the word wrapper at width `w` returns them unchanged"
fails as stated, for both trim modes, at `w = 3` on the single line
`"foo​"` (total display width 3): the trailing zero-width-space
grapheme is dropped, reproducing the repository's
`line_composer_zero_width_at_end` test. -/
theorem word_wrap_idempotence_cex :
    (wordWrapLines 3 true [[grF, grO, grO, grZwsp]] ≠
      [[grF, grO, grO, grZwsp]]) ∧
    (wordWrapLines 3 false [[grF, grO, grO, grZwsp]] ≠
      [[grF, grO, grO, grZwsp]]) ∧
    lineWidth [grF, grO, grO, grZwsp] ≤ 3 := by
  refine ⟨?_, ?_, by decide⟩ <;> decide

/-! ### Word-wrap idempotence (C4) and long-word completeness (C6)

Both proofs are loop invariants over `wrapStep`.  `wrapContent` is the text
still owned by the in-progress state (assembled line, then pending
whitespace, then pending word — the chronological order the buffers hold). -/

/-- The graphemes currently held by the in-progress wrap state, in input
order. -/
def wrapContent (st : WrapState) : GLine :=
  st.currentLine ++ st.pendingWhitespace ++ st.pendingWord

theorem wrapFlush_false (st : WrapState) :
    wrapFlush false st =
      { st with
        currentLine := st.currentLine ++ st.pendingWhitespace ++ st.pendingWord
        currentLineWidth :=
          st.currentLineWidth + st.whitespaceWidth + st.wordWidth
        pendingWord := []
        wordWidth := 0
        pendingWhitespace := []
        whitespaceWidth := 0 } := by
  rw [wrapFlush, if_pos (Or.inr (by simp))]

theorem wrapFlush_no_ws (trim : Bool) (st : WrapState)
    (hws : st.pendingWhitespace = []) (hwsw : st.whitespaceWidth = 0) :
    wrapFlush trim st =
      { st with
        currentLine := st.currentLine ++ st.pendingWord
        currentLineWidth := st.currentLineWidth + st.wordWidth
        pendingWord := []
        wordWidth := 0
        pendingWhitespace := []
        whitespaceWidth := 0 } := by
  rw [wrapFlush]
  by_cases h : ¬st.currentLine.isEmpty = true ∨ ¬trim = true
  · rw [if_pos h]
    simp [hws, hwsw]
  · rw [if_neg h]

theorem wrapEmit_no_ws (maxW : Nat) (st : WrapState)
    (hws : st.pendingWhitespace = []) :
    wrapEmit maxW st =
      { st with
        result := st.result ++ [st.currentLine]
        currentLine := []
        currentLineWidth := 0
        pendingWhitespace := []
        whitespaceWidth := st.whitespaceWidth } := by
  rw [wrapEmit]
  simp [hws, popWhitespace]

theorem wrapPush_ws (g : StyledGrapheme) (st : WrapState)
    (h : g.whitespace = true) :
    wrapPush g st =
      { st with
        pendingWhitespace := st.pendingWhitespace ++ [g]
        whitespaceWidth := st.whitespaceWidth + g.width
        nonWhitespacePrevious := false } := by
  rw [wrapPush, if_pos h]
  simp [h]

theorem wrapPush_word (g : StyledGrapheme) (st : WrapState)
    (h : g.whitespace = false) :
    wrapPush g st =
      { st with
        pendingWord := st.pendingWord ++ [g]
        wordWidth := st.wordWidth + g.width
        nonWhitespacePrevious := true } := by
  rw [wrapPush, if_neg (by simp [h])]
  simp [h]

/-- The loop invariant for untrimmed (`trim = false`) wrapping of a line
whose total width fits in `w`: nothing has been emitted, the tracked widths
agree with the buffers, the assembled line is strictly below `w`, the
whitespace queue holds only whitespace, and a whitespace-final prefix has
an empty pending word. -/
def wrapInvariant (w : Nat) (st : WrapState) : Prop :=
  st.result = [] ∧
  st.currentLineWidth = lineWidth st.currentLine ∧
  st.whitespaceWidth = lineWidth st.pendingWhitespace ∧
  st.wordWidth = lineWidth st.pendingWord ∧
  st.currentLineWidth < w ∧
  (∀ x ∈ st.pendingWhitespace, x.whitespace = true) ∧
  (st.nonWhitespacePrevious = false → st.pendingWord = [])

theorem wrapStep_c4 (w : Nat) (st : WrapState) (g : StyledGrapheme)
    (hinv : wrapInvariant w st)
    (hbound : lineWidth (wrapContent st) + g.width ≤ w)
    (hwsg : g.whitespace = true → 0 < g.width) :
    wrapInvariant w (wrapStep w false st g) ∧
    wrapContent (wrapStep w false st g) = wrapContent st ++ [g] := by
  obtain ⟨hres, hclw, hwsw, hww, hlt, hwsmem, hnwp⟩ := hinv
  have hb : lineWidth st.currentLine + lineWidth st.pendingWhitespace +
      lineWidth st.pendingWord + g.width ≤ w := by
    simp only [wrapContent, lineWidth_append] at hbound
    omega
  rw [wrapStep, if_neg (by omega : ¬w < g.width)]
  by_cases hf : wrapFlushCond w false st g
  · -- a flush fires; with `trim = false` and a width-bounded line only
    -- `word_found` can fire, so the symbol is positive-width whitespace
    have hgws : g.whitespace = true ∧ st.nonWhitespacePrevious = true := by
      rcases hf with h | h | h | h
      · exact ⟨h.2, h.1⟩
      · exact absurd h.2.2 (by simp)
      · exact absurd h.2.2 (by simp)
      · obtain ⟨h1, -, -⟩ := h
        omega
    obtain ⟨hgws, -⟩ := hgws
    have hgpos : 0 < g.width := hwsg hgws
    rw [if_pos hf, wrapFlush_false]
    rw [if_neg (by unfold wrapBreakCond; dsimp only; omega),
        wrapPush_ws g _ hgws]
    refine ⟨⟨hres, ?_, ?_, ?_, ?_, ?_, ?_⟩, ?_⟩
    · show st.currentLineWidth + st.whitespaceWidth + st.wordWidth =
        lineWidth (st.currentLine ++ st.pendingWhitespace ++ st.pendingWord)
      simp only [lineWidth_append]
      omega
    · show 0 + g.width = lineWidth ([] ++ [g])
      simp
    · show (0 : Nat) = lineWidth []
      rfl
    · show st.currentLineWidth + st.whitespaceWidth + st.wordWidth < w
      omega
    · show ∀ x ∈ ([] : GLine) ++ [g], x.whitespace = true
      intro x hx
      simp only [List.nil_append, List.mem_singleton] at hx
      rw [hx, hgws]
    · show false = false → ([] : GLine) = []
      intro
      rfl
    · show (st.currentLine ++ st.pendingWhitespace ++ st.pendingWord) ++
        ([] ++ [g]) ++ [] = wrapContent st ++ [g]
      simp [wrapContent]
  · rw [if_neg hf]
    have hnob : ¬wrapBreakCond w st g := by
      unfold wrapBreakCond
      omega
    rw [if_neg hnob]
    by_cases hws : g.whitespace = true
    · -- no word boundary: the previous symbol was whitespace too, so the
      -- pending word is empty and order is preserved by the queue push
      have hnwpf : st.nonWhitespacePrevious = false := by
        rcases hnwp' : st.nonWhitespacePrevious with _ | _
        · rfl
        · exact absurd (Or.inl ⟨hnwp', hws⟩) hf
      have hpw : st.pendingWord = [] := hnwp hnwpf
      rw [wrapPush_ws g _ hws]
      refine ⟨⟨hres, hclw, ?_, hww, hlt, ?_, ?_⟩, ?_⟩
      · show st.whitespaceWidth + g.width =
          lineWidth (st.pendingWhitespace ++ [g])
        simp only [lineWidth_append, lineWidth_cons, lineWidth_nil]
        omega
      · show ∀ x ∈ st.pendingWhitespace ++ [g], x.whitespace = true
        intro x hx
        rcases List.mem_append.mp hx with h | h
        · exact hwsmem x h
        · rw [List.mem_singleton.mp h, hws]
      · show false = false → st.pendingWord = []
        intro
        exact hpw
      · show st.currentLine ++ (st.pendingWhitespace ++ [g]) ++
          st.pendingWord = wrapContent st ++ [g]
        simp [wrapContent, hpw]
    · have hws' : g.whitespace = false := by
        revert hws
        cases g.whitespace <;> simp
      rw [wrapPush_word g _ hws']
      refine ⟨⟨hres, hclw, hwsw, ?_, hlt, hwsmem, ?_⟩, ?_⟩
      · show st.wordWidth + g.width = lineWidth (st.pendingWord ++ [g])
        simp only [lineWidth_append, lineWidth_cons, lineWidth_nil]
        omega
      · show true = false → st.pendingWord ++ [g] = []
        intro h
        exact absurd h (by simp)
      · show st.currentLine ++ st.pendingWhitespace ++
          (st.pendingWord ++ [g]) = wrapContent st ++ [g]
        simp [wrapContent]

theorem wrapFold_c4 (w : Nat) :
    ∀ (rest : GLine) (st : WrapState),
      wrapInvariant w st →
      lineWidth (wrapContent st) + lineWidth rest ≤ w →
      (∀ g ∈ rest, g.whitespace = true → 0 < g.width) →
      wrapInvariant w (rest.foldl (wrapStep w false) st) ∧
      wrapContent (rest.foldl (wrapStep w false) st) =
        wrapContent st ++ rest := by
  intro rest
  induction rest with
  | nil =>
    intro st hinv hb hws
    exact ⟨hinv, by simp⟩
  | cons g rest ih =>
    intro st hinv hb hws
    simp only [lineWidth_cons] at hb
    have hstep := wrapStep_c4 w st g hinv (by omega) (hws g (by simp))
    have hb' : lineWidth (wrapContent (wrapStep w false st g)) +
        lineWidth rest ≤ w := by
      rw [hstep.2]
      simp only [lineWidth_append, lineWidth_cons, lineWidth_nil]
      omega
    have hrec := ih (wrapStep w false st g) hstep.1 hb'
      (fun g' hg' => hws g' (List.mem_cons_of_mem _ hg'))
    rw [List.foldl_cons]
    refine ⟨hrec.1, ?_⟩
    rw [hrec.2, hstep.2]
    simp

theorem wrapFinish_c4 (st : WrapState)
    (hres : st.result = [])
    (hwsmem : ∀ x ∈ st.pendingWhitespace, x.whitespace = true)
    (hnb : wrapContent st ≠ [] →
      ∃ g ∈ wrapContent st, g.whitespace = false) :
    wrapFinish false st = [wrapContent st] := by
  rcases hpw : st.pendingWord with _ | ⟨p, pr⟩ <;>
    rcases hws : st.pendingWhitespace with _ | ⟨a, ar⟩ <;>
    rcases hcl : st.currentLine with _ | ⟨c, cr⟩
  · simp [wrapFinish, hres, hpw, hws, hcl, wrapContent]
  · simp [wrapFinish, hres, hpw, hws, hcl, wrapContent]
  · -- an untouched nonempty all-whitespace line, excluded by `hnb`
    exfalso
    obtain ⟨g, hg, hgws⟩ := hnb (by simp [wrapContent, hpw, hws, hcl])
    rw [wrapContent, hpw, hws, hcl] at hg
    simp only [List.nil_append, List.append_nil] at hg
    have := hwsmem g (by rw [hws]; exact hg)
    rw [this] at hgws
    exact absurd hgws (by simp)
  · simp [wrapFinish, hres, hpw, hws, hcl, wrapContent]
  · simp [wrapFinish, hres, hpw, hws, hcl, wrapContent]
  · simp [wrapFinish, hres, hpw, hws, hcl, wrapContent]
  · simp [wrapFinish, hres, hpw, hws, hcl, wrapContent]
  · simp [wrapFinish, hres, hpw, hws, hcl, wrapContent]

/-- Helper: flattening a map to singleton lists is the identity. -/
theorem flatten_map_singleton {α : Type} (l : List α) :
    (l.map (fun a => [a])).flatten = l := by
  induction l with
  | nil => rfl
  | cons a l ih => simp [ih]

theorem processInput_id (w : Nat) (hw : 0 < w) (L : GLine)
    (hwidth : lineWidth L ≤ w)
    (hwsg : ∀ g ∈ L, g.whitespace = true → 0 < g.width)
    (hnb : L ≠ [] → ∃ g ∈ L, g.whitespace = false) :
    processInput w false L = [L] := by
  have hinit : wrapInvariant w initWrapState :=
    ⟨rfl, rfl, rfl, rfl, hw, by simp [initWrapState], fun _ => rfl⟩
  have hfold := wrapFold_c4 w L initWrapState hinit
    (by simpa [wrapContent, initWrapState] using hwidth) hwsg
  obtain ⟨⟨hres, -, -, -, -, hwsmem, -⟩, hcontent⟩ := hfold
  have hcontent' :
      wrapContent (L.foldl (wrapStep w false) initWrapState) = L := by
    rw [hcontent]
    simp [wrapContent, initWrapState]
  have hnb' : wrapContent (L.foldl (wrapStep w false) initWrapState) ≠ [] →
      ∃ g ∈ wrapContent (L.foldl (wrapStep w false) initWrapState),
        g.whitespace = false := by
    rw [hcontent']
    exact hnb
  rw [processInput, wrapFinish_c4 _ hres hwsmem hnb', hcontent']

/-- C4 (amended) — Word-wrap idempotence holds for the
whitespace-preserving wrapper (`trim = false`) on lines with no zero-width
whitespace graphemes and no nonempty all-whitespace lines: for every
`w > 0` and every sequence of input lines each of total display width at
most `w`, wrapping at `w` returns exactly the same lines. -/
theorem word_wrap_idempotent_amended (w : Nat) (hw : 0 < w)
    (lines : List GLine)
    (hwidth : ∀ l ∈ lines, lineWidth l ≤ w)
    (hwsg : ∀ l ∈ lines, ∀ g ∈ l, g.whitespace = true → 0 < g.width)
    (hnb : ∀ l ∈ lines, l ≠ [] → ∃ g ∈ l, g.whitespace = false) :
    wordWrapLines w false lines = lines := by
  rw [wordWrapLines, if_neg (by omega)]
  have hmap : lines.map (processInput w false) =
      lines.map (fun l => [l]) :=
    List.map_congr_left (fun l hl =>
      processInput_id w hw l (hwidth l hl) (hwsg l hl) (hnb l hl))
  rw [hmap, flatten_map_singleton]

/-- C4 (amended) witness — the amended idempotence applied to the
concrete lines `["a a", ""]` at width 5. -/
theorem word_wrap_idempotent_amended_witness :
    wordWrapLines 5 false [[grA, grSpace, grA], []] =
      [[grA, grSpace, grA], []] :=
  word_wrap_idempotent_amended 5 (by decide) [[grA, grSpace, grA], []]
    (by decide) (by decide) (by decide)

/-! For a line consisting of a single word (no whitespace graphemes at
all), no grapheme is ever dropped: the whitespace queue stays empty, so the
only two drop sites of the loop (the wider-than-max skip and the
post-break whitespace removal) are never reached.  `wrapContentAll` is all
the text the state owns, including already-emitted lines. -/

/-- All graphemes owned by the wrap state: emitted lines, the line being
assembled, the pending whitespace queue and the pending word, in input
order. -/
def wrapContentAll (st : WrapState) : GLine :=
  st.result.flatten ++ st.currentLine ++ st.pendingWord

theorem wrapFlush_word (trim : Bool) (st : WrapState)
    (hws : st.pendingWhitespace = []) :
    wrapContentAll (wrapFlush trim st) = wrapContentAll st ∧
    (wrapFlush trim st).pendingWhitespace = [] := by
  rw [wrapFlush]
  by_cases h : ¬st.currentLine.isEmpty = true ∨ ¬trim = true
  · rw [if_pos h]
    exact ⟨by simp [wrapContentAll, hws], rfl⟩
  · rw [if_neg h]
    exact ⟨by simp [wrapContentAll], rfl⟩

theorem wrapEmit_word (maxW : Nat) (st : WrapState)
    (hws : st.pendingWhitespace = []) :
    wrapContentAll (wrapEmit maxW st) = wrapContentAll st ∧
    (wrapEmit maxW st).pendingWhitespace = [] := by
  rw [wrapEmit, hws]
  exact ⟨by simp [wrapContentAll, popWhitespace], by simp [popWhitespace]⟩

theorem wrapPush_word_content (g : StyledGrapheme) (st : WrapState)
    (hgws : g.whitespace = false) :
    wrapContentAll (wrapPush g st) = wrapContentAll st ++ [g] ∧
    (wrapPush g st).pendingWhitespace = st.pendingWhitespace := by
  rw [wrapPush_word g st hgws]
  exact ⟨by simp [wrapContentAll], rfl⟩

theorem wrapStep_word (w : Nat) (trim : Bool) (st : WrapState)
    (g : StyledGrapheme) (hws : st.pendingWhitespace = [])
    (hgws : g.whitespace = false) (hgw : g.width ≤ w) :
    (wrapStep w trim st g).pendingWhitespace = [] ∧
    wrapContentAll (wrapStep w trim st g) = wrapContentAll st ++ [g] := by
  rw [wrapStep, if_neg (by omega)]
  by_cases hf : wrapFlushCond w trim st g
  · rw [if_pos hf]
    obtain ⟨hc1, hws1⟩ := wrapFlush_word trim st hws
    by_cases hbk : wrapBreakCond w (wrapFlush trim st) g
    · rw [if_pos hbk, if_neg (by simp [hgws])]
      obtain ⟨hc2, hws2⟩ := wrapEmit_word w (wrapFlush trim st) hws1
      obtain ⟨hc3, hws3⟩ := wrapPush_word_content g _ hgws
      exact ⟨by rw [hws3, hws2], by rw [hc3, hc2, hc1]⟩
    · rw [if_neg hbk]
      obtain ⟨hc3, hws3⟩ := wrapPush_word_content g _ hgws
      exact ⟨by rw [hws3, hws1], by rw [hc3, hc1]⟩
  · rw [if_neg hf]
    by_cases hbk : wrapBreakCond w st g
    · rw [if_pos hbk, if_neg (by simp [hgws])]
      obtain ⟨hc2, hws2⟩ := wrapEmit_word w st hws
      obtain ⟨hc3, hws3⟩ := wrapPush_word_content g _ hgws
      exact ⟨by rw [hws3, hws2], by rw [hc3, hc2]⟩
    · rw [if_neg hbk]
      obtain ⟨hc3, hws3⟩ := wrapPush_word_content g _ hgws
      exact ⟨by rw [hws3, hws], by rw [hc3]⟩

theorem wrapFold_word (w : Nat) (trim : Bool) :
    ∀ (rest : GLine) (st : WrapState),
      st.pendingWhitespace = [] →
      (∀ g ∈ rest, g.whitespace = false) →
      (∀ g ∈ rest, g.width ≤ w) →
      (rest.foldl (wrapStep w trim) st).pendingWhitespace = [] ∧
      wrapContentAll (rest.foldl (wrapStep w trim) st) =
        wrapContentAll st ++ rest := by
  intro rest
  induction rest with
  | nil =>
    intro st hws _ _
    exact ⟨hws, by simp⟩
  | cons g rest ih =>
    intro st hws hnw hgw
    have hstep := wrapStep_word w trim st g hws (hnw g (by simp))
      (hgw g (by simp))
    have hrec := ih (wrapStep w trim st g) hstep.1
      (fun g' hg' => hnw g' (List.mem_cons_of_mem _ hg'))
      (fun g' hg' => hgw g' (List.mem_cons_of_mem _ hg'))
    rw [List.foldl_cons]
    refine ⟨hrec.1, ?_⟩
    rw [hrec.2, hstep.2]
    simp

theorem wrapFinish_word (trim : Bool) (st : WrapState)
    (hws : st.pendingWhitespace = []) :
    (wrapFinish trim st).flatten = wrapContentAll st := by
  rcases hpw : st.pendingWord with _ | ⟨p, pr⟩
  · rcases hcl : st.currentLine with _ | ⟨c, cr⟩
    · rcases hres : st.result with _ | ⟨r, rs⟩ <;>
        simp [wrapFinish, wrapContentAll, hpw, hcl, hws, hres]
    · simp [wrapFinish, wrapContentAll, hpw, hcl, hws]
  · by_cases h2 : ¬trim = true ∨ ¬st.currentLine.isEmpty = true
    · simp [wrapFinish, wrapContentAll, hpw, hws, h2]
    · simp [wrapFinish, wrapContentAll, hpw, hws, h2]

theorem processInput_word (w : Nat) (trim : Bool) (L : GLine)
    (hnw : ∀ g ∈ L, g.whitespace = false)
    (hgw : ∀ g ∈ L, g.width ≤ w) :
    (processInput w trim L).flatten = L := by
  have hfold := wrapFold_word w trim L initWrapState rfl hnw hgw
  rw [processInput, wrapFinish_word trim _ hfold.1, hfold.2]
  simp [wrapContentAll, initWrapState]

/-- C6 — For every `w > 0` and both trim modes, when the word wrapper
is fed a single word (a line of non-whitespace graphemes, each individually
of width at most `w`) whose total display width exceeds `w`, it hard-splits
the word across successive output lines without dropping any grapheme: the
concatenation of the emitted lines is exactly the input word. -/
theorem word_wrap_long_word_no_drop (w : Nat) (hw : 0 < w) (trim : Bool)
    (L : GLine)
    (hnw : ∀ g ∈ L, g.whitespace = false)
    (hgw : ∀ g ∈ L, g.width ≤ w)
    (hover : w < lineWidth L) :
    (wordWrapLines w trim [L]).flatten = L := by
  rw [wordWrapLines, if_neg (by omega)]
  simp only [List.map_cons, List.map_nil, List.flatten_cons, List.flatten_nil,
    List.append_nil]
  exact processInput_word w trim L hnw hgw

/-- C6 witness — a width-3 word of `'a'`s hard-split at width 2:
nothing is dropped. -/
theorem word_wrap_long_word_no_drop_witness :
    (wordWrapLines 2 false [List.replicate 3 grA]).flatten =
      List.replicate 3 grA :=
  word_wrap_long_word_no_drop 2 (by decide) false (List.replicate 3 grA)
    (by decide) (by decide) (by decide)

/-- C9 — With `max_line_width = 0` both composers immediately yield no
lines for every input, including non-empty ones. -/
theorem zero_width_yields_no_lines :
    (∀ (trim : Bool) (lines : List GLine), wordWrapLines 0 trim lines = []) ∧
    (∀ (hoff : Nat) (lines : List (GLine × Alignment)),
      lineTruncatorRun 0 hoff lines = []) := by
  constructor
  · intro trim lines
    simp [wordWrapLines]
  · intro hoff lines
    simp [lineTruncatorRun]

/-! ## Constraint layout solver (`layout.rs`)

`Layout::try_split` (lines 550–633) creates `2N+2` position variables
`v 0 … v (2N+1)` along the layout direction; `configure_area` (lines
636–645) pins `v 0` and `v (2N+1)` to the margin-inset area's bounds with
`REQUIRED` strength and `configure_variable_constraints` (lines 647–664)
bounds every variable inside the area and orders them ascending, also with
`REQUIRED` strength.  The cassowary solver (external crate) guarantees a
returned solution satisfies every `REQUIRED` constraint and minimizes the
strength-weighted sum of soft-constraint violations.  We model a solver
solution as any `v : ℕ → ℚ` satisfying the `REQUIRED` constraints
(`hardSat`), refined for concrete optimality claims by an explicit
objective (`ℚ` stands in for `f64`: all constants the layout code feeds
the solver at the instances studied here are integers, hence exact).
Element `i` of the segments is the variable pair `(v (2i+1), v (2i+2))`
and element `i` of the spacers is `(v (2i), v (2i+1))` (lines 598–612). -/

/-- The `f64::round` — round half away from zero. -/
def roundF (q : ℚ) : ℤ := if 0 ≤ q then ⌊q + 1 / 2⌋ else -⌊-q + 1 / 2⌋

/-- Rust's saturating `f64 as u16` cast. -/
def castU16 (z : ℤ) : Nat := (min (max z 0) 65535).toNat

/-- The inset area's start coordinate along the layout direction
(`layout.rs` lines 574–577). -/
def dirStart (d : Direction) (r : Rect) : Nat :=
  match d with
  | Direction.horizontal => r.x
  | Direction.vertical => r.y

/-- The inset area's exclusive end coordinate along the layout direction
(`layout.rs` lines 574–577). -/
def dirEnd (d : Direction) (r : Rect) : Nat :=
  match d with
  | Direction.horizontal => r.right
  | Direction.vertical => r.bottom

/-- A rect's extent along the layout direction. -/
def dirSize (d : Direction) (r : Rect) : Nat :=
  match d with
  | Direction.horizontal => r.width
  | Direction.vertical => r.height

/-- The `REQUIRED`-strength constraints of `configure_area` and
`configure_variable_constraints` (`layout.rs` lines 636–664) on the `2n+2`
position variables: the first variable is the area start, the last is the
area end, every variable lies inside `[start, end]`, and adjacent
variables are ascending.  Any solution the cassowary solver returns
satisfies all of these. -/
def hardSat (n : Nat) (lo hi : ℚ) (v : ℕ → ℚ) : Prop :=
  v 0 = lo ∧ v (2 * n + 1) = hi ∧
  (∀ i, i ≤ 2 * n + 1 → lo ≤ v i ∧ v i ≤ hi) ∧
  (∀ i, i < 2 * n + 1 → v i ≤ v (i + 1))

instance (n : Nat) (lo hi : ℚ) (v : ℕ → ℚ) : Decidable (hardSat n lo hi v) := by
  unfold hardSat
  exact inferInstance

/-- One element of `changes_to_rects` (`layout.rs` lines 857–886): round
the element's start and end variables, cast to `u16`, take the saturating
difference as the size, and position the rect along the direction with the
cross axis copied from the inset area. -/
def elemRect (d : Direction) (area : Rect) (s e : ℚ) : Rect :=
  let s' := castU16 (roundF s)
  let e' := castU16 (roundF e)
  match d with
  | Direction.horizontal => ⟨s', area.y, e' - s', area.height⟩
  | Direction.vertical => ⟨area.x, s', area.width, e' - s'⟩

/-- The segment rects of a solve: `changes_to_rects` applied to the
segment elements `(v (2i+1), v (2i+2))` for `i < n`. -/
def segmentRects (d : Direction) (area : Rect) (n : Nat) (v : ℕ → ℚ) :
    List Rect :=
  (List.range n).map (fun i => elemRect d area (v (2 * i + 1)) (v (2 * i + 2)))

/-- The spacer rects of a solve: `changes_to_rects` applied to the spacer
elements `(v (2i), v (2i+1))` for `i ≤ n`. -/
def spacerRects (d : Direction) (area : Rect) (n : Nat) (v : ℕ → ℚ) :
    List Rect :=
  (List.range (n + 1)).map
    (fun i => elemRect d area (v (2 * i)) (v (2 * i + 1)))

theorem roundF_mono {a b : ℚ} (h : a ≤ b) : roundF a ≤ roundF b := by
  unfold roundF
  by_cases ha : 0 ≤ a
  · rw [if_pos ha, if_pos (le_trans ha h)]
    exact Int.floor_le_floor (by linarith)
  · rw [if_neg ha]
    by_cases hb : 0 ≤ b
    · rw [if_pos hb]
      have h1 : 0 ≤ ⌊b + 1 / 2⌋ := Int.floor_nonneg.mpr (by linarith)
      have h2 : 0 ≤ ⌊-a + 1 / 2⌋ := Int.floor_nonneg.mpr (by linarith)
      omega
    · rw [if_neg hb]
      have : ⌊-b + 1 / 2⌋ ≤ ⌊-a + 1 / 2⌋ := Int.floor_le_floor (by linarith)
      omega

theorem roundF_natCast (k : Nat) : roundF (k : ℚ) = k := by
  unfold roundF
  rw [if_pos (by positivity)]
  have h1 : ((k : ℚ) + 1 / 2) = 1 / 2 + (k : ℤ) := by push_cast; ring
  rw [h1, Int.floor_add_int]
  norm_num

theorem castU16_mono {a b : ℤ} (h : a ≤ b) : castU16 a ≤ castU16 b := by
  unfold castU16
  omega

theorem castU16_natCast (k : Nat) (hk : k ≤ 65535) : castU16 (k : ℤ) = k := by
  unfold castU16
  omega

/-- Monotone chains: the rounded-and-cast positions are ascending. -/
theorem chain_le (R : ℕ → ℕ) (k : ℕ) (mono : ∀ j, j < k → R j ≤ R (j + 1)) :
    ∀ a b, a ≤ b → b ≤ k → R a ≤ R b := by
  intro a b hab hbk
  induction b with
  | zero =>
    have : a = 0 := Nat.le_zero.mp hab
    rw [this]
  | succ b ih =>
    rcases Nat.lt_or_ge a (b + 1) with h | h
    · have h1 : R a ≤ R b := ih (by omega) (by omega)
      have h2 : R b ≤ R (b + 1) := mono b (by omega)
      omega
    · have : a = b + 1 := by omega
      rw [this]

/-- Telescoping the interleaved segment/spacer sizes: the segment sum plus
the spacer sum collapses to the overall extent. -/
theorem sum_interleave (R : ℕ → ℕ) :
    ∀ n : Nat, (∀ j, j < 2 * n + 1 → R j ≤ R (j + 1)) →
      ((List.range n).map (fun i => R (2 * i + 2) - R (2 * i + 1))).sum +
        ((List.range (n + 1)).map (fun i => R (2 * i + 1) - R (2 * i))).sum =
        R (2 * n + 1) - R 0 := by
  intro n
  induction n with
  | zero =>
    intro _
    simp [List.range_succ]
  | succ n ih =>
    intro mono
    have hrec := ih (fun j hj => mono j (by omega))
    rw [List.range_succ, List.range_succ (n := n + 1)]
    simp only [List.map_append, List.map_cons, List.map_nil, List.sum_append,
      List.sum_cons, List.sum_nil]
    have c1 : R 0 ≤ R (2 * n + 1) :=
      chain_le R (2 * n + 1) (fun j hj => mono j (by omega)) 0 (2 * n + 1)
        (by omega) le_rfl
    have c2 : R (2 * n + 1) ≤ R (2 * n + 2) := mono (2 * n + 1) (by omega)
    have c3 : R (2 * n + 2) ≤ R (2 * n + 3) := mono (2 * n + 2) (by omega)
    have e1 : 2 * n + 1 + 1 = 2 * n + 2 := by omega
    have e2 : 2 * (n + 1) = 2 * n + 2 := by omega
    have e3 : 2 * (n + 1) + 1 = 2 * n + 3 := by omega
    rw [e2, e3] at *
    omega

theorem getD_range_map {α : Type} (f : ℕ → α) (k i : ℕ) (h : i < k) (d : α) :
    ((List.range k).map f).getD i d = f i := by
  rw [List.getD_eq_getElem?_getD, List.getElem?_map, List.getElem?_range h]
  rfl

theorem dirStart_elemRect (d : Direction) (area : Rect) (s e : ℚ) :
    dirStart d (elemRect d area s e) = castU16 (roundF s) := by
  cases d <;> rfl

theorem dirSize_elemRect (d : Direction) (area : Rect) (s e : ℚ) :
    dirSize d (elemRect d area s e) = castU16 (roundF e) - castU16 (roundF s) := by
  cases d <;> rfl

/-- C2 counterexample — the claim "the segment sizes plus spacer sizes sum
to the inset area's size" is false at the representable rect
`(x = 60000, width = 10000)`: `Rect::right` saturates at `u16::MAX`, so the
`REQUIRED` bounds pin every position variable inside `[60000, 65535]` and
for every valuation the solver can return the sizes sum to the saturated
extent 5535, never the inset width 10000 — shown by instantiating one
witnessing valuation. -/
theorem layout_tiling_sum_cex :
    ¬(∀ v : ℕ → ℚ,
      hardSat 1
        ((dirStart Direction.horizontal
          (Rect.inner ⟨60000, 0, 10000, 1⟩ ⟨0, 0⟩) : ℕ) : ℚ)
        ((dirEnd Direction.horizontal
          (Rect.inner ⟨60000, 0, 10000, 1⟩ ⟨0, 0⟩) : ℕ) : ℚ) v →
      ((segmentRects Direction.horizontal
          (Rect.inner ⟨60000, 0, 10000, 1⟩ ⟨0, 0⟩) 1 v).map
        (dirSize Direction.horizontal)).sum +
      ((spacerRects Direction.horizontal
          (Rect.inner ⟨60000, 0, 10000, 1⟩ ⟨0, 0⟩) 1 v).map
        (dirSize Direction.horizontal)).sum =
      dirSize Direction.horizontal
        (Rect.inner ⟨60000, 0, 10000, 1⟩ ⟨0, 0⟩)) := by
  intro h
  have h5 := h (fun i => if i ≤ 1 then (60000 : ℚ) else 65535) (by decide)
  have heval : ((segmentRects Direction.horizontal
      (Rect.inner ⟨60000, 0, 10000, 1⟩ ⟨0, 0⟩) 1
      (fun i => if i ≤ 1 then (60000 : ℚ) else 65535)).map
        (dirSize Direction.horizontal)).sum +
      ((spacerRects Direction.horizontal
        (Rect.inner ⟨60000, 0, 10000, 1⟩ ⟨0, 0⟩) 1
        (fun i => if i ≤ 1 then (60000 : ℚ) else 65535)).map
        (dirSize Direction.horizontal)).sum = 5535 := by
    simp only [segmentRects, spacerRects, List.range_succ, List.range_zero,
      List.nil_append, List.map_cons, List.map_nil, List.map_append,
      List.singleton_append, List.sum_cons, List.sum_nil, List.sum_append]
    norm_num [elemRect, dirSize, roundF, castU16, Rect.inner]
    decide
  have hins : dirSize Direction.horizontal
      (Rect.inner ⟨60000, 0, 10000, 1⟩ ⟨0, 0⟩) = 10000 := by decide
  rw [heval, hins] at h5
  exact absurd h5 (by decide)

/-- C2 (amended) — For every direction, area, margin, constraint count and
solver solution (any valuation satisfying the `REQUIRED` constraints), the
segments and spacers produced by `split_with_spacers`/`changes_to_rects`
exactly tile the margin-inset area along the layout direction: there are
`n` segments and `n+1` spacers, the sizes sum to the inset area's
directional extent (its saturating exclusive end minus its start, which is
its size except when `x + width` overflows `u16::MAX`), the first spacer
starts at the area start, each segment starts where its preceding spacer
ends, each following spacer starts where the segment ends (no gaps, no
overlaps), and the last spacer ends at the area's directional end. -/
theorem split_with_spacers_tiles_amended (d : Direction) (area : Rect)
    (m : Margin) (n : Nat) (v : ℕ → ℚ)
    (hv : hardSat n ((dirStart d (area.inner m) : ℕ) : ℚ)
      ((dirEnd d (area.inner m) : ℕ) : ℚ) v) :
    (segmentRects d (area.inner m) n v).length = n ∧
    (spacerRects d (area.inner m) n v).length = n + 1 ∧
    ((segmentRects d (area.inner m) n v).map (dirSize d)).sum +
      ((spacerRects d (area.inner m) n v).map (dirSize d)).sum =
      dirEnd d (area.inner m) - dirStart d (area.inner m) ∧
    dirStart d ((spacerRects d (area.inner m) n v).getD 0 ⟨0, 0, 0, 0⟩) =
      dirStart d (area.inner m) ∧
    (∀ i, i < n →
      dirStart d ((segmentRects d (area.inner m) n v).getD i ⟨0, 0, 0, 0⟩) =
        dirStart d ((spacerRects d (area.inner m) n v).getD i ⟨0, 0, 0, 0⟩) +
        dirSize d ((spacerRects d (area.inner m) n v).getD i ⟨0, 0, 0, 0⟩)) ∧
    (∀ i, i < n →
      dirStart d
          ((spacerRects d (area.inner m) n v).getD (i + 1) ⟨0, 0, 0, 0⟩) =
        dirStart d ((segmentRects d (area.inner m) n v).getD i ⟨0, 0, 0, 0⟩) +
        dirSize d ((segmentRects d (area.inner m) n v).getD i ⟨0, 0, 0, 0⟩)) ∧
    dirStart d ((spacerRects d (area.inner m) n v).getD n ⟨0, 0, 0, 0⟩) +
      dirSize d ((spacerRects d (area.inner m) n v).getD n ⟨0, 0, 0, 0⟩) =
      dirEnd d (area.inner m) := by
  obtain ⟨hv0, hvl, hbnd, hmono⟩ := hv
  -- a satisfiable set of REQUIRED constraints forces start ≤ end, and the
  -- saturating end is within u16 by construction
  have hlohi : dirStart d (area.inner m) ≤ dirEnd d (area.inner m) := by
    have hb := hbnd 0 (by omega)
    rw [hv0] at hb
    exact_mod_cast hb.2
  have hhiM : dirEnd d (area.inner m) ≤ 65535 := by
    cases d <;> exact Nat.min_le_right _ _
  set R : ℕ → ℕ := fun j => castU16 (roundF (v j)) with hR
  have hRmono : ∀ j, j < 2 * n + 1 → R j ≤ R (j + 1) := fun j hj =>
    castU16_mono (roundF_mono (hmono j hj))
  have hR0 : R 0 = dirStart d (area.inner m) := by
    rw [hR]
    dsimp only
    rw [hv0, roundF_natCast, castU16_natCast _ (by omega)]
  have hRlast : R (2 * n + 1) = dirEnd d (area.inner m) := by
    rw [hR]
    dsimp only
    rw [hvl, roundF_natCast, castU16_natCast _ hhiM]
  have hseg : (segmentRects d (area.inner m) n v).map (dirSize d) =
      (List.range n).map (fun i => R (2 * i + 2) - R (2 * i + 1)) := by
    rw [segmentRects, List.map_map]
    exact List.map_congr_left (fun i _ => by
      simp [Function.comp, dirSize_elemRect, hR])
  have hspc : (spacerRects d (area.inner m) n v).map (dirSize d) =
      (List.range (n + 1)).map (fun i => R (2 * i + 1) - R (2 * i)) := by
    rw [spacerRects, List.map_map]
    exact List.map_congr_left (fun i _ => by
      simp [Function.comp, dirSize_elemRect, hR])
  have hsegD : ∀ i, i < n →
      (segmentRects d (area.inner m) n v).getD i ⟨0, 0, 0, 0⟩ =
        elemRect d (area.inner m) (v (2 * i + 1)) (v (2 * i + 2)) :=
    fun i hi => getD_range_map _ n i hi _
  have hspcD : ∀ i, i < n + 1 →
      (spacerRects d (area.inner m) n v).getD i ⟨0, 0, 0, 0⟩ =
        elemRect d (area.inner m) (v (2 * i)) (v (2 * i + 1)) :=
    fun i hi => getD_range_map _ (n + 1) i hi _
  refine ⟨by simp [segmentRects], by simp [spacerRects], ?_, ?_, ?_, ?_, ?_⟩
  · rw [hseg, hspc, sum_interleave R n hRmono, hR0, hRlast]
  · rw [hspcD 0 (by omega)]
    rw [dirStart_elemRect]
    have := hR0
    rw [hR] at this
    simpa using this
  · intro i hi
    rw [hsegD i hi, hspcD i (by omega), dirStart_elemRect,
      dirStart_elemRect, dirSize_elemRect]
    have h1 : R (2 * i) ≤ R (2 * i + 1) := hRmono (2 * i) (by omega)
    rw [hR] at h1
    simp only at h1
    omega
  · intro i hi
    rw [hsegD i hi, hspcD (i + 1) (by omega), dirStart_elemRect,
      dirStart_elemRect, dirSize_elemRect]
    have h1 : R (2 * i + 1) ≤ R (2 * i + 2) := hRmono (2 * i + 1) (by omega)
    rw [hR] at h1
    simp only at h1
    have e1 : 2 * (i + 1) = 2 * i + 2 := by omega
    rw [e1]
    omega
  · rw [hspcD n (by omega), dirStart_elemRect, dirSize_elemRect]
    have h1 : R (2 * n) ≤ R (2 * n + 1) := hRmono (2 * n) (by omega)
    have h2 := hRlast
    rw [hR] at h1 h2
    simp only at h1 h2
    omega

/-- C2 (amended) witness — the tiling sum at a concrete instance: one
constraint over a 10-wide area with the valuation `(0, 0, 10, 10)`. -/
theorem split_with_spacers_tiles_amended_witness :
    ((segmentRects Direction.horizontal
        (Rect.inner ⟨0, 0, 10, 1⟩ ⟨0, 0⟩) 1
        (fun i => if i ≤ 1 then (0 : ℚ) else 10)).map
      (dirSize Direction.horizontal)).sum +
    ((spacerRects Direction.horizontal
        (Rect.inner ⟨0, 0, 10, 1⟩ ⟨0, 0⟩) 1
        (fun i => if i ≤ 1 then (0 : ℚ) else 10)).map
      (dirSize Direction.horizontal)).sum =
    dirEnd Direction.horizontal (Rect.inner ⟨0, 0, 10, 1⟩ ⟨0, 0⟩) -
      dirStart Direction.horizontal (Rect.inner ⟨0, 0, 10, 1⟩ ⟨0, 0⟩) :=
  (split_with_spacers_tiles_amended Direction.horizontal ⟨0, 0, 10, 1⟩
    ⟨0, 0⟩ 1 (fun i => if i ≤ 1 then (0 : ℚ) else 10)
    (by decide)).2.2.1

/-- The `castU16` of a natural number clamps at `u16::MAX`. -/
theorem castU16_natCast_min (k : Nat) : castU16 (k : ℤ) = min k 65535 := by
  unfold castU16
  omega

/-- C1 counterexample — the claim "a `Fixed(n)` segment has size
exactly `n` even when `n` exceeds the inset area" is false at the concrete
instance `Layout::horizontal([Fixed(10)])` on a 5-wide area: the
`REQUIRED` constraints confine every position variable to `[0, 5]`, so for
every valuation the solver can return, the unique segment has width at
most 5 — the witnessing valuation yields width 5, not 10. -/
theorem fixed_inviolability_cex :
    ¬(∀ v : ℕ → ℚ,
      hardSat 1
        ((dirStart Direction.horizontal
          (Rect.inner ⟨0, 0, 5, 1⟩ ⟨0, 0⟩) : ℕ) : ℚ)
        ((dirEnd Direction.horizontal
          (Rect.inner ⟨0, 0, 5, 1⟩ ⟨0, 0⟩) : ℕ) : ℚ) v →
      (segmentRects Direction.horizontal
        (Rect.inner ⟨0, 0, 5, 1⟩ ⟨0, 0⟩) 1 v).map Rect.width = [10]) := by
  intro h
  have h5 := h (fun i => if i ≤ 1 then (0 : ℚ) else 5) (by decide)
  have heval : (segmentRects Direction.horizontal
      (Rect.inner ⟨0, 0, 5, 1⟩ ⟨0, 0⟩) 1
      (fun i => if i ≤ 1 then (0 : ℚ) else 5)).map Rect.width = [5] := by
    simp only [segmentRects, List.range_succ, List.range_zero,
      List.nil_append, List.map_cons, List.map_nil]
    norm_num [elemRect, roundF, castU16, Rect.inner]
    rfl
  rw [heval] at h5
  exact absurd h5 (by decide)

/-- C1 (amended) — The segment produced for a `Fixed(k)` constraint
(like every segment) never exceeds the margin-inset area's size along the
layout direction, for every solver solution; in particular, when `k`
exceeds the inset size the segment is clipped and cannot have size `k`. -/
theorem fixed_segment_clipped (d : Direction) (area : Rect) (m : Margin)
    (cs : List Constraint) (i k : Nat)
    (hck : cs.getD i (Constraint.length 0) = Constraint.fixed k)
    (hi : i < cs.length) (v : ℕ → ℚ)
    (hv : hardSat cs.length ((dirStart d (area.inner m) : ℕ) : ℚ)
      ((dirEnd d (area.inner m) : ℕ) : ℚ) v) :
    dirSize d ((segmentRects d (area.inner m) cs.length v).getD i
      ⟨0, 0, 0, 0⟩) ≤ dirSize d (area.inner m) ∧
    (dirSize d (area.inner m) < k →
      dirSize d ((segmentRects d (area.inner m) cs.length v).getD i
        ⟨0, 0, 0, 0⟩) ≠ k) := by
  obtain ⟨hv0, hvl, hbnd, hmono⟩ := hv
  have hnb : dirEnd d (area.inner m) ≤ dirStart d (area.inner m) +
      dirSize d (area.inner m) := by
    cases d <;> exact Nat.min_le_left _ _
  have hhiM : dirEnd d (area.inner m) ≤ 65535 := by
    cases d <;> exact Nat.min_le_right _ _
  set n := cs.length with hn
  set R : ℕ → ℕ := fun j => castU16 (roundF (v j)) with hR
  have hRmono : ∀ j, j < 2 * n + 1 → R j ≤ R (j + 1) := fun j hj =>
    castU16_mono (roundF_mono (hmono j hj))
  have h1 : R 0 ≤ R (2 * i + 1) :=
    chain_le R (2 * n + 1) hRmono 0 (2 * i + 1) (by omega) (by omega)
  have h2 : R (2 * i + 2) ≤ R (2 * n + 1) :=
    chain_le R (2 * n + 1) hRmono (2 * i + 2) (2 * n + 1) (by omega) le_rfl
  have hR0 : R 0 = min (dirStart d (area.inner m)) 65535 := by
    rw [hR]
    dsimp only
    rw [hv0, roundF_natCast, castU16_natCast_min]
  have hRl : R (2 * n + 1) = dirEnd d (area.inner m) := by
    rw [hR]
    dsimp only
    rw [hvl, roundF_natCast, castU16_natCast_min]
    omega
  have hgetD : (segmentRects d (area.inner m) n v).getD i ⟨0, 0, 0, 0⟩ =
      elemRect d (area.inner m) (v (2 * i + 1)) (v (2 * i + 2)) :=
    getD_range_map _ n i hi _
  have e1 : castU16 (roundF (v (2 * i + 1))) = R (2 * i + 1) := rfl
  have e2 : castU16 (roundF (v (2 * i + 2))) = R (2 * i + 2) := rfl
  constructor
  · rw [hgetD, dirSize_elemRect, e1, e2]
    omega
  · intro hover
    rw [hgetD, dirSize_elemRect, e1, e2]
    omega

/-- C1 (amended) witness — the clipping bound applied at the
counterexample instance: `Fixed(10)` on a 5-wide area gives a segment of
width at most 5, hence not 10. -/
theorem fixed_segment_clipped_witness :
    dirSize Direction.horizontal
      ((segmentRects Direction.horizontal
        (Rect.inner ⟨0, 0, 5, 1⟩ ⟨0, 0⟩) [Constraint.fixed 10].length
        (fun i => if i ≤ 1 then (0 : ℚ) else 5)).getD 0 ⟨0, 0, 0, 0⟩) ≤
      dirSize Direction.horizontal (Rect.inner ⟨0, 0, 5, 1⟩ ⟨0, 0⟩) :=
  (fixed_segment_clipped Direction.horizontal ⟨0, 0, 5, 1⟩ ⟨0, 0⟩
    [Constraint.fixed 10] 0 10 (by decide) (by decide)
    (fun i => if i ≤ 1 then (0 : ℚ) else 5) (by decide)).1

/-! ### Strengths and the solver objective (C3)

The strength constants of `layout.rs` lines 963–1055, with cassowary's
`REQUIRED = 1_001_001_000`, `STRONG = 1_000_000`, `MEDIUM = 1_000`,
`WEAK = 1` (all exactly representable, as are their quotients by 10 used
here).  The cassowary simplex minimizes the sum over all non-required
constraints of `strength * violation`; `objectiveStretchLast` spells this
sum out for a `Flex::StretchLast` layout (the default) with no
`Proportional` pairs (`configure_proportional_constraints` adds nothing
for the instances below). -/

/-- The `SPACER_SIZE_EQ = REQUIRED - 1.0` (`layout.rs` line 970); also the
strength of `Element::is_empty` (line 945). -/
def SPACER_SIZE_EQ : ℚ := 1001001000 - 1

/-- The `FIXED_SIZE_EQ = REQUIRED / 10.0` (line 984). -/
def FIXED_SIZE_EQ : ℚ := 1001001000 / 10

/-- The `MIN_SIZE_GE = STRONG * 10.0` (line 991). -/
def MIN_SIZE_GE : ℚ := 1000000 * 10

/-- The `MAX_SIZE_LE = STRONG * 10.0` (line 998). -/
def MAX_SIZE_LE : ℚ := 1000000 * 10

/-- The `LENGTH_SIZE_EQ = STRONG / 10.0` (line 1005). -/
def LENGTH_SIZE_EQ : ℚ := 1000000 / 10

/-- The `PERCENTAGE_SIZE_EQ = MEDIUM * 10.0` (line 1012). -/
def PERCENTAGE_SIZE_EQ : ℚ := 1000 * 10

/-- The `RATIO_SIZE_EQ = MEDIUM` (line 1019). -/
def RATIO_SIZE_EQ : ℚ := 1000

/-- The `MIN_SIZE_EQ = MEDIUM / 10.0` (line 1026). -/
def MIN_SIZE_EQ : ℚ := 1000 / 10

/-- The `MAX_SIZE_EQ = MEDIUM / 10.0` (line 1033). -/
def MAX_SIZE_EQ : ℚ := 1000 / 10

/-- The `PROPORTIONAL_GROW = WEAK * 10.0` (line 1040). -/
def PROPORTIONAL_GROW : ℚ := 1 * 10

/-- The `GROW = WEAK` (line 1047). -/
def GROW : ℚ := 1

/-- The size expression of segment element `i`: `v (2i+2) - v (2i+1)`. -/
def segSize (v : ℕ → ℚ) (i : ℕ) : ℚ := v (2 * i + 2) - v (2 * i + 1)

/-- The size expression of spacer element `i`: `v (2i+1) - v (2i)`. -/
def spacerSize (v : ℕ → ℚ) (i : ℕ) : ℚ := v (2 * i + 1) - v (2 * i)

/-- The weighted violation contributed by one user constraint on one
segment, as added by `configure_constraints` (`layout.rs` lines 666–704):
an `EQ(s)` constraint with violation `d` contributes `s * |d|`, a `GE`/`LE`
constraint contributes its strength times its one-sided violation.
`Percentage` and `Ratio` sizes are fractions of the area element's size,
`Ratio` flooring a zero denominator to 1 (line 694). -/
def constraintCost (areaSize : ℚ) : Constraint → ℚ → ℚ
  | Constraint.fixed n, size => FIXED_SIZE_EQ * |size - (n : ℚ)|
  | Constraint.length n, size => LENGTH_SIZE_EQ * |size - (n : ℚ)|
  | Constraint.percentage p, size =>
      PERCENTAGE_SIZE_EQ * |size - areaSize * (p : ℚ) / 100|
  | Constraint.ratio num den, size =>
      RATIO_SIZE_EQ * |size - areaSize * (num : ℚ) / ((max den 1 : ℕ) : ℚ)|
  | Constraint.min n, size =>
      MIN_SIZE_GE * max 0 ((n : ℚ) - size) + MIN_SIZE_EQ * |size - (n : ℚ)|
  | Constraint.max n, size =>
      MAX_SIZE_LE * max 0 (size - (n : ℚ)) + MAX_SIZE_EQ * |size - (n : ℚ)|
  | Constraint.proportional _, size => PROPORTIONAL_GROW * |size - areaSize|

/-- The weighted violations added by `configure_flex_constraints` for
`Flex::StretchLast` (`layout.rs` lines 742–750): every interior spacer is
pinned to the user `spacing` and the first and last spacers are pinned
empty, all at strength `REQUIRED - 1`. -/
def flexStretchLastCost (n : Nat) (spacing : ℚ) (v : ℕ → ℚ) : ℚ :=
  SPACER_SIZE_EQ *
      (((List.range (n - 1)).map
        (fun i => |spacerSize v (i + 1) - spacing|)).sum) +
    SPACER_SIZE_EQ * |spacerSize v 0| + SPACER_SIZE_EQ * |spacerSize v n|

/-- The full cassowary objective for a `Flex::StretchLast` layout with the
given constraints and spacing and no `Proportional` pairs: the sum of the
flex costs and the per-constraint costs (the area element's size expression
is `v (2n+1) - v 0`). -/
def objectiveStretchLast (cs : List Constraint) (spacing : ℚ)
    (v : ℕ → ℚ) : ℚ :=
  flexStretchLastCost cs.length spacing v +
    ((cs.enum.map (fun p =>
      constraintCost (v (2 * cs.length + 1) - v 0) p.2 (segSize v p.1))).sum)

theorem objA_eq (v : ℕ → ℚ) :
    objectiveStretchLast [Constraint.length 25, Constraint.min 100] 0 v =
      1001000999 * |v 3 - v 2| + 1001000999 * |v 1 - v 0| +
        1001000999 * |v 5 - v 4| + 100000 * |v 2 - v 1 - 25| +
        (10000000 * max 0 (100 - (v 4 - v 3)) +
          100 * |v 4 - v 3 - 100|) := by
  norm_num [objectiveStretchLast, flexStretchLastCost, constraintCost,
    segSize, spacerSize, List.enum, List.enumFrom, List.range_succ,
    SPACER_SIZE_EQ, LENGTH_SIZE_EQ, MIN_SIZE_GE, MIN_SIZE_EQ]
  ring

theorem objB_eq (v : ℕ → ℚ) :
    objectiveStretchLast [Constraint.length 25, Constraint.min 0] 0 v =
      1001000999 * |v 3 - v 2| + 1001000999 * |v 1 - v 0| +
        1001000999 * |v 5 - v 4| + 100000 * |v 2 - v 1 - 25| +
        (10000000 * max 0 (0 - (v 4 - v 3)) + 100 * |v 4 - v 3|) := by
  norm_num [objectiveStretchLast, flexStretchLastCost, constraintCost,
    segSize, spacerSize, List.enum, List.enumFrom, List.range_succ,
    SPACER_SIZE_EQ, LENGTH_SIZE_EQ, MIN_SIZE_GE, MIN_SIZE_EQ]
  ring

/-- The optimal valuation for `[Length(25), Min(100)]` over `[0, 100]`:
everything pinned to 0 except the `Min(100)` segment, which takes the
whole area. -/
def optValA : ℕ → ℚ := fun i => if i ≤ 3 then 0 else 100

/-- The optimal valuation for `[Length(25), Min(0)]` over `[0, 100]`:
the `Length(25)` segment takes 25, the rest stretches to the end. -/
def optValB : ℕ → ℚ := fun i => if i ≤ 1 then 0 else if i ≤ 3 then 25 else 100

theorem objA_val : objectiveStretchLast
    [Constraint.length 25, Constraint.min 100] 0 optValA = 2500000 := by
  rw [objA_eq]
  norm_num [optValA]

theorem objB_val : objectiveStretchLast
    [Constraint.length 25, Constraint.min 0] 0 optValB = 7500 := by
  rw [objB_eq]
  norm_num [optValB]

theorem objA_min (u : ℕ → ℚ) (hu : hardSat 2 0 100 u) :
    2500000 ≤
      objectiveStretchLast [Constraint.length 25, Constraint.min 100] 0 u := by
  obtain ⟨h0, h5, hbnd, hmono⟩ := hu
  rw [objA_eq]
  have m0 : u 0 ≤ u 1 := hmono 0 (by omega)
  have m1 : u 1 ≤ u 2 := hmono 1 (by omega)
  have m2 : u 2 ≤ u 3 := hmono 2 (by omega)
  have m3 : u 3 ≤ u 4 := hmono 3 (by omega)
  have m4 : u 4 ≤ u 5 := hmono 4 (by omega)
  have b4 : 0 ≤ u 4 ∧ u 4 ≤ 100 := hbnd 4 (by omega)
  have e1 : |u 1 - u 0| = u 1 - u 0 := abs_of_nonneg (by linarith)
  have e2 : |u 3 - u 2| = u 3 - u 2 := abs_of_nonneg (by linarith)
  have e3 : |u 5 - u 4| = u 5 - u 4 := abs_of_nonneg (by linarith)
  have hm : 0 ≤ 100 - (u 4 - u 3) := by
    have h3 : 0 ≤ u 3 := by
      have := hbnd 3 (by omega)
      linarith [this.1]
    linarith [b4.2]
  have e4 : max 0 (100 - (u 4 - u 3)) = 100 - (u 4 - u 3) :=
    max_eq_right hm
  have e5 : |u 4 - u 3 - 100| = 100 - (u 4 - u 3) := by
    rw [abs_of_nonpos (by linarith)]
    ring
  rw [e1, e2, e3, e4, e5]
  rcases le_or_lt 25 (u 2 - u 1) with hL | hL
  · -- Length already satisfied or exceeded: the Min deficit is ≥ 25
    have : 25 ≤ 100 - (u 4 - u 3) := by linarith
    have habs : 0 ≤ |u 2 - u 1 - 25| := abs_nonneg _
    linarith
  · have e6 : |u 2 - u 1 - 25| = 25 - (u 2 - u 1) := by
      rw [abs_of_neg (by linarith)]
      ring
    rw [e6]
    linarith

theorem objB_min (u : ℕ → ℚ) (hu : hardSat 2 0 100 u) :
    7500 ≤
      objectiveStretchLast [Constraint.length 25, Constraint.min 0] 0 u := by
  obtain ⟨h0, h5, hbnd, hmono⟩ := hu
  rw [objB_eq]
  have m0 : u 0 ≤ u 1 := hmono 0 (by omega)
  have m1 : u 1 ≤ u 2 := hmono 1 (by omega)
  have m2 : u 2 ≤ u 3 := hmono 2 (by omega)
  have m3 : u 3 ≤ u 4 := hmono 3 (by omega)
  have m4 : u 4 ≤ u 5 := hmono 4 (by omega)
  have e1 : |u 1 - u 0| = u 1 - u 0 := abs_of_nonneg (by linarith)
  have e2 : |u 3 - u 2| = u 3 - u 2 := abs_of_nonneg (by linarith)
  have e3 : |u 5 - u 4| = u 5 - u 4 := abs_of_nonneg (by linarith)
  have e4 : max 0 (0 - (u 4 - u 3)) = 0 := max_eq_left (by linarith)
  have e5 : |u 4 - u 3| = u 4 - u 3 := abs_of_nonneg (by linarith)
  rw [e1, e2, e3, e4, e5]
  have habs1 : u 2 - u 1 - 25 ≤ |u 2 - u 1 - 25| := le_abs_self _
  have habs2 : -(u 2 - u 1 - 25) ≤ |u 2 - u 1 - 25| := neg_le_abs _
  linarith

/-- C3 — For the width-100 area `(0, 0, 100, 1)` with the default flex
(`StretchLast`), no margin and no spacing: every optimal solver solution
for `Layout::horizontal([Length(25), Min(100)])` yields segment widths
`[0, 100]` (the `Min` wins over the `Length`), and every optimal solver
solution for `Layout::horizontal([Length(25), Min(0)])` yields segment
widths `[25, 75]`. -/
theorem layout_priority_scenarios :
    (∀ v : ℕ → ℚ, hardSat 2 0 100 v →
      (∀ u : ℕ → ℚ, hardSat 2 0 100 u →
        objectiveStretchLast [Constraint.length 25, Constraint.min 100] 0 v ≤
          objectiveStretchLast [Constraint.length 25, Constraint.min 100] 0 u) →
      (segmentRects Direction.horizontal ⟨0, 0, 100, 1⟩ 2 v).map Rect.width =
        [0, 100]) ∧
    (∀ v : ℕ → ℚ, hardSat 2 0 100 v →
      (∀ u : ℕ → ℚ, hardSat 2 0 100 u →
        objectiveStretchLast [Constraint.length 25, Constraint.min 0] 0 v ≤
          objectiveStretchLast [Constraint.length 25, Constraint.min 0] 0 u) →
      (segmentRects Direction.horizontal ⟨0, 0, 100, 1⟩ 2 v).map Rect.width =
        [25, 75]) := by
  constructor
  · intro v hv hmin
    have hstar : hardSat 2 0 100 optValA := by decide
    have hle := hmin optValA hstar
    rw [objA_val, objA_eq] at hle
    obtain ⟨h0, h5, hbnd, hmono⟩ := hv
    have m0 : v 0 ≤ v 1 := hmono 0 (by omega)
    have m1 : v 1 ≤ v 2 := hmono 1 (by omega)
    have m2 : v 2 ≤ v 3 := hmono 2 (by omega)
    have m3 : v 3 ≤ v 4 := hmono 3 (by omega)
    have m4 : v 4 ≤ v 5 := hmono 4 (by omega)
    have b4 : 0 ≤ v 4 ∧ v 4 ≤ 100 := hbnd 4 (by omega)
    have e1 : |v 1 - v 0| = v 1 - v 0 := abs_of_nonneg (by linarith)
    have e2 : |v 3 - v 2| = v 3 - v 2 := abs_of_nonneg (by linarith)
    have e3 : |v 5 - v 4| = v 5 - v 4 := abs_of_nonneg (by linarith)
    have hm : 0 ≤ 100 - (v 4 - v 3) := by
      have h3 : 0 ≤ v 3 := by
        have := hbnd 3 (by omega)
        linarith [this.1]
      linarith [b4.2]
    have e4 : max 0 (100 - (v 4 - v 3)) = 100 - (v 4 - v 3) :=
      max_eq_right hm
    have e5 : |v 4 - v 3 - 100| = 100 - (v 4 - v 3) := by
      rw [abs_of_nonpos (by linarith)]
      ring
    rw [e1, e2, e3, e4, e5] at hle
    have hLlt : v 2 - v 1 < 25 := by
      by_contra hc
      push_neg at hc
      have habs : 0 ≤ |v 2 - v 1 - 25| := abs_nonneg _
      linarith
    have e6 : |v 2 - v 1 - 25| = 25 - (v 2 - v 1) := by
      rw [abs_of_neg (by linarith)]
      ring
    rw [e6] at hle
    have hv1 : v 1 = 0 := by linarith
    have hv2 : v 2 = 0 := by linarith
    have hv3 : v 3 = 0 := by linarith
    have hv4 : v 4 = 100 := by linarith
    simp only [segmentRects, List.range_succ, List.range_zero,
      List.nil_append, List.map_cons, List.map_nil, List.map_append,
      List.singleton_append]
    norm_num [hv1, hv2, hv3, hv4, elemRect, roundF, castU16]
    decide
  · intro v hv hmin
    have hstar : hardSat 2 0 100 optValB := by decide
    have hle := hmin optValB hstar
    rw [objB_val, objB_eq] at hle
    obtain ⟨h0, h5, hbnd, hmono⟩ := hv
    have m0 : v 0 ≤ v 1 := hmono 0 (by omega)
    have m1 : v 1 ≤ v 2 := hmono 1 (by omega)
    have m2 : v 2 ≤ v 3 := hmono 2 (by omega)
    have m3 : v 3 ≤ v 4 := hmono 3 (by omega)
    have m4 : v 4 ≤ v 5 := hmono 4 (by omega)
    have e1 : |v 1 - v 0| = v 1 - v 0 := abs_of_nonneg (by linarith)
    have e2 : |v 3 - v 2| = v 3 - v 2 := abs_of_nonneg (by linarith)
    have e3 : |v 5 - v 4| = v 5 - v 4 := abs_of_nonneg (by linarith)
    have e4 : max 0 (0 - (v 4 - v 3)) = 0 := max_eq_left (by linarith)
    have e5 : |v 4 - v 3| = v 4 - v 3 := abs_of_nonneg (by linarith)
    rw [e1, e2, e3, e4, e5] at hle
    have habs1 : v 2 - v 1 - 25 ≤ |v 2 - v 1 - 25| := le_abs_self _
    have habs2 : -(v 2 - v 1 - 25) ≤ |v 2 - v 1 - 25| := neg_le_abs _
    have habs0 : 0 ≤ |v 2 - v 1 - 25| := abs_nonneg _
    have hv1 : v 1 = 0 := by linarith
    have hvS : v 3 = v 2 := by linarith
    have hvB : v 5 = v 4 := by linarith
    have hL : v 2 - v 1 = 25 := by linarith
    have hv2 : v 2 = 25 := by linarith
    have hv3 : v 3 = 25 := by linarith
    have hv4 : v 4 = 100 := by linarith
    simp only [segmentRects, List.range_succ, List.range_zero,
      List.nil_append, List.map_cons, List.map_nil, List.map_append,
      List.singleton_append]
    norm_num [hv1, hv2, hv3, hv4, elemRect, roundF, castU16]
    decide

/-- C3 witness — the two scenarios instantiated at the explicit
optimal valuations. -/
theorem layout_priority_scenarios_witness :
    (segmentRects Direction.horizontal ⟨0, 0, 100, 1⟩ 2 optValA).map
      Rect.width = [0, 100] ∧
    (segmentRects Direction.horizontal ⟨0, 0, 100, 1⟩ 2 optValB).map
      Rect.width = [25, 75] :=
  ⟨layout_priority_scenarios.1 optValA (by decide)
      (fun u hu => by rw [objA_val]; exact objA_min u hu),
   layout_priority_scenarios.2 optValB (by decide)
      (fun u hu => by rw [objB_val]; exact objB_min u hu)⟩

end Tui
